import Mathlib

set_option maxHeartbeats 1000000

/-
Shallow embedding of the schema-migration engine in `store/sqlstore/upgrade.go`
(package sqlstore of the whatsmeow repository).

The engine's durable state is modelled by `DB`:
  * `hasVersionTable` — whether the `whatsmeow_version` table exists;
  * `versionRows`     — the rows of `whatsmeow_version` (each row one integer);
  * `applied`         — the ordinal indices of the migration steps whose schema
                        effect is durably present, in the order they were
                        committed.  The steps' payloads are literal DDL text
                        (external content per the engine's contract), so a
                        step's schema effect is modelled as recording its index.

A transaction (`*sql.Tx`) is a pending copy of the durable state: operations
executed through the transaction act on the copy; `Commit` replaces the durable
state with the copy; `Rollback` (or never committing) discards the copy.

`Faults` injects failures of the individual database calls, indexed by the
loop counter of the iteration in which they occur, so that every error path of
`Container.Upgrade` is reachable in the model.  A ghost `Event` trace records
transaction begins and step invocations (together with the durable schema
version at the moment of invocation) to state ordering claims.
-/

/-- Durable database state of the sqlstore container, restricted to what the
upgrade engine reads and writes. -/
structure DB where
  hasVersionTable : Bool
  versionRows : List Int
  applied : List Nat
  deriving DecidableEq, Repr

/-- Errors produced by the modelled database calls, tagged with enough
information to identify which call of which iteration failed (Go surfaces
opaque `error` values; the tags model error identity). -/
inductive DbError where
  | createTable
  | beginTx
  | step (i : Nat)
  | deleteVer (i : Nat)
  | insertVer (i : Nat)
  | commit (i : Nat)
  deriving DecidableEq, Repr

/-- Fault injection for the underlying database calls.  Each field tells
whether the corresponding call fails, indexed (where meaningful) by the loop
counter of `Container.Upgrade` at the time of the call. -/
structure Faults where
  createFails : Bool := false
  readFails : Bool := false
  beginFails : Nat → Bool := fun _ => false
  stepFails : Nat → Bool := fun _ => false
  deleteFails : Nat → Bool := fun _ => false
  insertFails : Nat → Bool := fun _ => false
  commitFails : Nat → Bool := fun _ => false

/-- The fault assignment under which every database call succeeds. -/
def noFaults : Faults := {}

/-- Faults that make exactly migration step `k` fail (its SQL errors). -/
def stepFailsOnly (k : Nat) : Faults := { stepFails := fun i => i == k }

/-- Faults that make exactly the `DELETE FROM whatsmeow_version` of
`setVersion` fail during iteration `k`. -/
def deleteFailsOnly (k : Nat) : Faults := { deleteFails := fun i => i == k }

/-- Faults that make exactly the `INSERT INTO whatsmeow_version` of
`setVersion` fail during iteration `k`. -/
def insertFailsOnly (k : Nat) : Faults := { insertFails := fun i => i == k }

/-- The logical schema version stored in a state: the value of the first row
of `whatsmeow_version`, or 0 when the table is empty (mirrors how
`getVersion`'s `SELECT version FROM whatsmeow_version LIMIT 1` plus the
zero-initialised `version` variable read the table). -/
def schemaVersion (db : DB) : Int := db.versionRows.head?.getD 0

/-- A store on which nothing has ever run: no version table, no rows, no step
effects. -/
def freshDB : DB := { hasVersionTable := false, versionRows := [], applied := [] }

/-- Embedding of `Container.getVersion` (upgrade.go lines 22-34):
`CREATE TABLE IF NOT EXISTS whatsmeow_version (version INTEGER)` — on failure
return the error (Go returns `(-1, err)`; the `-1` is never consumed); then
`version := 0`, `SELECT version FROM whatsmeow_version LIMIT 1` and
`_ = row.Scan(&version)` — a failed query or scan is ignored, leaving
`version` at 0.  `readFails` models the query/scan failing. -/
def Container.getVersion (f : Faults) (db : DB) : DB × Except DbError Int :=
  if f.createFails then (db, Except.error DbError.createTable)
  else
    let db := if db.hasVersionTable then db
              else { db with hasVersionTable := true, versionRows := [] }
    let version : Int := if f.readFails then 0 else db.versionRows.head?.getD 0
    (db, Except.ok version)

/-- Embedding of `Container.setVersion` (upgrade.go lines 36-43):
`DELETE FROM whatsmeow_version` then
`INSERT INTO whatsmeow_version (version) VALUES (?)`, each returning its error
immediately.  `i` is the loop counter used to index the injected faults;
`tx` is the transaction's pending state. -/
def Container.setVersion (f : Faults) (i : Nat) (tx : DB) (version : Int) :
    DB × Option DbError :=
  if f.deleteFails i then (tx, some (DbError.deleteVer i))
  else
    let tx := { tx with versionRows := [] }
    if f.insertFails i then (tx, some (DbError.insertVer i))
    else ({ tx with versionRows := [version] }, none)

/-- Invocation of registry entry `i` (`migrateFunc := Upgrades[version]`,
`migrateFunc(tx, c)`) on the transaction state `tx`.  The registry entries
are opaque DDL executors from the engine's point of view; step `i`'s schema
effect is modelled as recording `i`.  A failing step is modelled worst-case:
it writes its (partial) effect into the transaction and then errors, so that
rollback discarding the write is what keeps durable state clean. -/
def runStep (f : Faults) (i : Nat) (tx : DB) : DB × Option DbError :=
  let tx := { tx with applied := tx.applied ++ [i] }
  if f.stepFails i then (tx, some (DbError.step i)) else (tx, none)

/-- Ghost trace events: `began i` — `c.db.Begin()` succeeded for the iteration
with loop counter `i`; `invoked i stored` — registry entry `i` was invoked,
with `stored` the durable schema version at that moment. -/
inductive Event where
  | began (i : Nat)
  | invoked (i : Nat) (stored : Int)
  deriving DecidableEq, Repr

/-- The loop body of `Container.Upgrade` (upgrade.go lines 52-74):
`for ; version < len(Upgrades); version++`.  `fuel` is the number of remaining
iterations `len(Upgrades) - version`, computed by `Container.Upgrade`, so
`fuel = 0` is exactly the loop condition `version < len(Upgrades)` failing.
Each iteration: `c.db.Begin()`; invoke `Upgrades[version]` on the transaction,
rolling back and returning its error on failure; `c.setVersion(tx, version+1)`,
returning its error (transaction left uncommitted); `tx.Commit()`, returning
its error on failure (an uncommitted transaction is not durable).  On success
the committed transaction state becomes the durable state and the loop
continues at `version + 1`. -/
def upgradeLoop (f : Faults) (fuel : Nat) (version : Nat) (db : DB)
    (tr : List Event) : DB × List Event × Option DbError :=
  match fuel with
  | 0 => (db, tr, none)
  | fuel' + 1 =>
    if f.beginFails version then (db, tr, some DbError.beginTx)
    else
      match runStep f version db with
      | (_, some e) =>
        (db, tr ++ [Event.began version, Event.invoked version (schemaVersion db)], some e)
      | (tx1, none) =>
        match Container.setVersion f version tx1 ((version : Int) + 1) with
        | (_, some e) =>
          (db, tr ++ [Event.began version, Event.invoked version (schemaVersion db)], some e)
        | (tx2, none) =>
          if f.commitFails version then
            (db, tr ++ [Event.began version, Event.invoked version (schemaVersion db)],
              some (DbError.commit version))
          else
            upgradeLoop f fuel' (version + 1) tx2
              (tr ++ [Event.began version, Event.invoked version (schemaVersion db)])

/-- Embedding of `Container.Upgrade` (upgrade.go lines 46-77), generalised
over the registry length `n` (`len(Upgrades)`; 4 in the source).  It reads the
current version via `Container.getVersion`, propagating its error, then runs
the upgrade loop from that version.  The loop counter is kept as a natural
number: every version value the engine itself ever persists is nonnegative
(`version+1` of a nonnegative counter), and on a negative stored version the
Go code would panic on the slice index rather than loop, so such junk states
are outside every execution the claims quantify over. -/
def Container.Upgrade (f : Faults) (n : Nat) (db : DB) :
    DB × List Event × Option DbError :=
  match Container.getVersion f db with
  | (db1, Except.error e) => (db1, [], some e)
  | (db1, Except.ok version) => upgradeLoop f (n - version.toNat) version.toNat db1 []

/-- The SQL statements executed by `upgradeV2`, as opaque tags:
`alterAddSigKey` is the dialect-independent
`ALTER TABLE whatsmeow_device ADD COLUMN adv_account_sig_key ...`;
`fillSigKeyPostgres` and `fillSigKeySQLite` are the two backfill constants of
the source (upgrade.go lines 266-284), whose SQL text differs by dialect. -/
inductive SqlStmt where
  | alterAddSigKey
  | fillSigKeyPostgres
  | fillSigKeySQLite
  deriving DecidableEq, Repr

/-- Embedding of `upgradeV2` (upgrade.go lines 286-297) at the level of which
SQL it executes: first the `ALTER TABLE` statement, then — by the branch
`if container.dialect == "postgres" || container.dialect == "pgx"` — either
the Postgres backfill constant or, for every other dialect string, the SQLite
backfill constant.  `tx` is the list of statements already executed in the
transaction. -/
def upgradeV2 (dialect : String) (tx : List SqlStmt) : List SqlStmt × Option DbError :=
  let tx := tx ++ [SqlStmt.alterAddSigKey]
  if dialect == "postgres" || dialect == "pgx" then
    (tx ++ [SqlStmt.fillSigKeyPostgres], none)
  else
    (tx ++ [SqlStmt.fillSigKeySQLite], none)

/-- Specification-side description of one fully committed iteration with loop
counter `i`: the durable state gains step `i`'s schema effect and the version
table is rewritten to the single row `i + 1` (the effect of `runStep`
followed by `setVersion (i+1)` followed by `Commit`). -/
def commitIter (i : Nat) (db : DB) : DB :=
  { db with applied := db.applied ++ [i], versionRows := [(i : Int) + 1] }

/-- Specification-side description of `fuel` consecutive fully committed
iterations starting at loop counter `version`. -/
def applyRange (version : Nat) (fuel : Nat) (db : DB) : DB :=
  match fuel with
  | 0 => db
  | fuel' + 1 => applyRange (version + 1) fuel' (commitIter version db)

/-- The ghost trace generated by `fuel` consecutive fully committed iterations
starting at loop counter `version`, when the durable schema version tracks the
loop counter. -/
def okTrace (version : Nat) (fuel : Nat) : List Event :=
  match fuel with
  | 0 => []
  | fuel' + 1 =>
    Event.began version :: Event.invoked version (version : Int) :: okTrace (version + 1) fuel'

/-- The step invocations recorded in a trace: the invoked registry index
paired with the durable schema version at the moment of invocation. -/
def invokes : List Event → List (Nat × Int)
  | [] => []
  | Event.began _ :: tr => invokes tr
  | Event.invoked i v :: tr => (i, v) :: invokes tr

/-- The invocation record of registry index `i` performed at durable schema
version `i` — the shape every invocation has in a normal (read-not-corrupted)
run. -/
def invokePair (i : Nat) : Nat × Int := (i, (i : Int))

/-- Whether every database call of the iteration with loop counter `i`
succeeds under the fault assignment `f`. -/
def iterOK (f : Faults) (i : Nat) : Bool :=
  !f.beginFails i && !f.stepFails i && !f.deleteFails i && !f.insertFails i
    && !f.commitFails i

/-- The durable state of a fresh store right after `getVersion` has created
the (empty) version table: the state from which `Upgrade`'s loop starts on a
fresh store. -/
def initDB : DB := { hasVersionTable := true, versionRows := [], applied := [] }

theorem iterOK_parts {f : Faults} {i : Nat} (h : iterOK f i = true) :
    f.beginFails i = false ∧ f.stepFails i = false ∧ f.deleteFails i = false
      ∧ f.insertFails i = false ∧ f.commitFails i = false := by
  simpa [iterOK, Bool.and_eq_true, Bool.not_eq_true', and_assoc] using h

theorem iterOK_of {f : Faults} {i : Nat} (hb : f.beginFails i = false)
    (hs : f.stepFails i = false) (hd : f.deleteFails i = false)
    (hi : f.insertFails i = false) (hc : f.commitFails i = false) :
    iterOK f i = true := by
  simp [iterOK, hb, hs, hd, hi, hc]

theorem invokes_append (a b : List Event) : invokes (a ++ b) = invokes a ++ invokes b := by
  induction a with
  | nil => rfl
  | cons e tl ih => cases e <;> simp [invokes, ih]

theorem applyRange_succ (v j : Nat) (db : DB) :
    applyRange v (j + 1) db = applyRange (v + 1) j (commitIter v db) := rfl

theorem applyRange_applied (j : Nat) : ∀ (v : Nat) (db : DB),
    (applyRange v j db).applied = db.applied ++ List.range' v j := by
  induction j with
  | zero => intro v db; simp [applyRange]
  | succ j ih =>
    intro v db
    rw [applyRange_succ, ih, List.range'_succ]
    simp [commitIter]

theorem applyRange_table (j : Nat) : ∀ (v : Nat) (db : DB),
    (applyRange v j db).hasVersionTable = db.hasVersionTable := by
  induction j with
  | zero => intro v db; rfl
  | succ j ih => intro v db; rw [applyRange_succ, ih]; rfl

theorem applyRange_rows (j : Nat) : ∀ (v : Nat) (db : DB),
    (applyRange v (j + 1) db).versionRows = [((v + j : Nat) : Int) + 1] := by
  induction j with
  | zero => intro v db; simp [applyRange, commitIter]
  | succ j ih =>
    intro v db
    rw [applyRange_succ, ih (v + 1) (commitIter v db)]
    congr 2
    push_cast
    ring

theorem applyRange_rows_pos (v j : Nat) (db : DB) (h : 0 < j) :
    (applyRange v j db).versionRows = [((v + j : Nat) : Int)] := by
  obtain ⟨j', rfl⟩ : ∃ j', j = j' + 1 := ⟨j - 1, by omega⟩
  rw [applyRange_rows]
  congr 1

theorem schemaVersion_commitIter (v : Nat) (db : DB) :
    schemaVersion (commitIter v db) = ((v + 1 : Nat) : Int) := by
  simp [schemaVersion, commitIter]

theorem schemaVersion_applyRange (j v : Nat) (db : DB) (h : schemaVersion db = (v : Int)) :
    schemaVersion (applyRange v j db) = ((v + j : Nat) : Int) := by
  cases j with
  | zero => simpa [applyRange] using h
  | succ j =>
    rw [schemaVersion, applyRange_rows]
    simp
    omega

theorem okTrace_succ (v fuel : Nat) :
    okTrace v (fuel + 1)
      = Event.began v :: Event.invoked v (v : Int) :: okTrace (v + 1) fuel := rfl

theorem invokes_okTrace (fuel : Nat) : ∀ (v : Nat),
    invokes (okTrace v fuel) = (List.range' v fuel).map invokePair := by
  induction fuel with
  | zero => intro v; rfl
  | succ fuel ih =>
    intro v
    rw [okTrace_succ, List.range'_succ]
    simp [invokes, ih, invokePair]

theorem upgradeLoop_succ_beginFail (f : Faults) (fuel v : Nat) (db : DB) (tr : List Event)
    (hb : f.beginFails v = true) :
    upgradeLoop f (fuel + 1) v db tr = (db, tr, some DbError.beginTx) := by
  simp [upgradeLoop, hb]

theorem upgradeLoop_succ_stepFail (f : Faults) (fuel v : Nat) (db : DB) (tr : List Event)
    (hb : f.beginFails v = false) (hs : f.stepFails v = true) :
    upgradeLoop f (fuel + 1) v db tr
      = (db, tr ++ [Event.began v, Event.invoked v (schemaVersion db)],
          some (DbError.step v)) := by
  simp [upgradeLoop, hb, runStep, hs]

theorem upgradeLoop_succ_deleteFail (f : Faults) (fuel v : Nat) (db : DB) (tr : List Event)
    (hb : f.beginFails v = false) (hs : f.stepFails v = false)
    (hd : f.deleteFails v = true) :
    upgradeLoop f (fuel + 1) v db tr
      = (db, tr ++ [Event.began v, Event.invoked v (schemaVersion db)],
          some (DbError.deleteVer v)) := by
  simp [upgradeLoop, hb, runStep, hs, Container.setVersion, hd]

theorem upgradeLoop_succ_insertFail (f : Faults) (fuel v : Nat) (db : DB) (tr : List Event)
    (hb : f.beginFails v = false) (hs : f.stepFails v = false)
    (hd : f.deleteFails v = false) (hi : f.insertFails v = true) :
    upgradeLoop f (fuel + 1) v db tr
      = (db, tr ++ [Event.began v, Event.invoked v (schemaVersion db)],
          some (DbError.insertVer v)) := by
  simp [upgradeLoop, hb, runStep, hs, Container.setVersion, hd, hi]

theorem upgradeLoop_succ_commitFail (f : Faults) (fuel v : Nat) (db : DB) (tr : List Event)
    (hb : f.beginFails v = false) (hs : f.stepFails v = false)
    (hd : f.deleteFails v = false) (hi : f.insertFails v = false)
    (hc : f.commitFails v = true) :
    upgradeLoop f (fuel + 1) v db tr
      = (db, tr ++ [Event.began v, Event.invoked v (schemaVersion db)],
          some (DbError.commit v)) := by
  simp [upgradeLoop, hb, runStep, hs, Container.setVersion, hd, hi, hc]

theorem upgradeLoop_succ_ok (f : Faults) (fuel v : Nat) (db : DB) (tr : List Event)
    (h : iterOK f v = true) :
    upgradeLoop f (fuel + 1) v db tr
      = upgradeLoop f fuel (v + 1) (commitIter v db)
          (tr ++ [Event.began v, Event.invoked v (schemaVersion db)]) := by
  obtain ⟨hb, hs, hd, hi, hc⟩ := iterOK_parts h
  simp [upgradeLoop, hb, runStep, hs, Container.setVersion, hd, hi, hc, commitIter]

theorem upgradeLoop_advance (f : Faults) (j : Nat) : ∀ (fuel v : Nat) (db : DB) (tr : List Event),
    j ≤ fuel → (∀ i, i < j → iterOK f (v + i) = true) →
    schemaVersion db = (v : Int) →
    upgradeLoop f fuel v db tr
      = upgradeLoop f (fuel - j) (v + j) (applyRange v j db) (tr ++ okTrace v j) := by
  induction j with
  | zero => intro fuel v db tr _ _ _; simp [applyRange, okTrace]
  | succ j ih =>
    intro fuel v db tr hj hok hv
    obtain ⟨fuel', rfl⟩ : ∃ fuel', fuel = fuel' + 1 := ⟨fuel - 1, by omega⟩
    rw [upgradeLoop_succ_ok f fuel' v db tr (hok 0 (Nat.succ_pos j)), hv]
    have hok' : ∀ i, i < j → iterOK f ((v + 1) + i) = true := by
      intro i hi
      have := hok (i + 1) (by omega)
      simpa [show v + (i + 1) = (v + 1) + i by omega] using this
    rw [ih fuel' (v + 1) (commitIter v db)
      (tr ++ [Event.began v, Event.invoked v (v : Int)]) (by omega) hok'
      (schemaVersion_commitIter v db)]
    rw [← applyRange_succ, okTrace_succ,
      show fuel' + 1 - (j + 1) = fuel' - j from by omega,
      show v + (j + 1) = v + 1 + j from by omega]
    simp

theorem upgradeLoop_ok (f : Faults) (fuel v : Nat) (db : DB) (tr : List Event)
    (hok : ∀ i, i < fuel → iterOK f (v + i) = true)
    (hv : schemaVersion db = (v : Int)) :
    upgradeLoop f fuel v db tr = (applyRange v fuel db, tr ++ okTrace v fuel, none) := by
  rw [upgradeLoop_advance f fuel fuel v db tr le_rfl hok hv]
  simp [upgradeLoop]

theorem upgradeLoop_none (f : Faults) : ∀ (fuel v : Nat) (db : DB) (tr : List Event),
    schemaVersion db = (v : Int) →
    (upgradeLoop f fuel v db tr).2.2 = none →
    upgradeLoop f fuel v db tr = (applyRange v fuel db, tr ++ okTrace v fuel, none) := by
  intro fuel
  induction fuel with
  | zero => intro v db tr _ _; simp [upgradeLoop, applyRange, okTrace]
  | succ fuel ih =>
    intro v db tr hv hnone
    by_cases hb : f.beginFails v
    · rw [upgradeLoop_succ_beginFail f fuel v db tr hb] at hnone
      simp at hnone
    · by_cases hs : f.stepFails v
      · rw [upgradeLoop_succ_stepFail f fuel v db tr (by simpa using hb) hs] at hnone
        simp at hnone
      · by_cases hd : f.deleteFails v
        · rw [upgradeLoop_succ_deleteFail f fuel v db tr (by simpa using hb)
            (by simpa using hs) hd] at hnone
          simp at hnone
        · by_cases hi : f.insertFails v
          · rw [upgradeLoop_succ_insertFail f fuel v db tr (by simpa using hb)
              (by simpa using hs) (by simpa using hd) hi] at hnone
            simp at hnone
          · by_cases hc : f.commitFails v
            · rw [upgradeLoop_succ_commitFail f fuel v db tr (by simpa using hb)
                (by simpa using hs) (by simpa using hd) (by simpa using hi) hc] at hnone
              simp at hnone
            · have hone := upgradeLoop_succ_ok f fuel v db tr
                (iterOK_of (by simpa using hb) (by simpa using hs) (by simpa using hd)
                  (by simpa using hi) (by simpa using hc))
              rw [hone, hv] at hnone ⊢
              rw [ih (v + 1) (commitIter v db)
                (tr ++ [Event.began v, Event.invoked v (v : Int)])
                (schemaVersion_commitIter v db) hnone]
              rw [← applyRange_succ, okTrace_succ]
              simp

theorem upgradeLoop_lockstep (f : Faults) : ∀ (fuel v : Nat) (db : DB) (tr : List Event),
    ∃ j, j ≤ fuel ∧ (upgradeLoop f fuel v db tr).1 = applyRange v j db := by
  intro fuel
  induction fuel with
  | zero => intro v db tr; exact ⟨0, le_rfl, rfl⟩
  | succ fuel ih =>
    intro v db tr
    by_cases hb : f.beginFails v
    · exact ⟨0, Nat.zero_le _, by rw [upgradeLoop_succ_beginFail f fuel v db tr hb]; rfl⟩
    · by_cases hs : f.stepFails v
      · exact ⟨0, Nat.zero_le _,
          by rw [upgradeLoop_succ_stepFail f fuel v db tr (by simpa using hb) hs]; rfl⟩
      · by_cases hd : f.deleteFails v
        · exact ⟨0, Nat.zero_le _,
            by rw [upgradeLoop_succ_deleteFail f fuel v db tr (by simpa using hb)
              (by simpa using hs) hd]; rfl⟩
        · by_cases hi : f.insertFails v
          · exact ⟨0, Nat.zero_le _,
              by rw [upgradeLoop_succ_insertFail f fuel v db tr (by simpa using hb)
                (by simpa using hs) (by simpa using hd) hi]; rfl⟩
          · by_cases hc : f.commitFails v
            · exact ⟨0, Nat.zero_le _,
                by rw [upgradeLoop_succ_commitFail f fuel v db tr (by simpa using hb)
                  (by simpa using hs) (by simpa using hd) (by simpa using hi) hc]; rfl⟩
            · obtain ⟨j, hj, heq⟩ := ih (v + 1) (commitIter v db)
                (tr ++ [Event.began v, Event.invoked v (schemaVersion db)])
              refine ⟨j + 1, by omega, ?_⟩
              rw [upgradeLoop_succ_ok f fuel v db tr
                (iterOK_of (by simpa using hb) (by simpa using hs) (by simpa using hd)
                  (by simpa using hi) (by simpa using hc))]
              rw [applyRange_succ]
              exact heq

theorem upgradeLoop_invokes (f : Faults) : ∀ (fuel v : Nat) (db : DB) (tr : List Event),
    schemaVersion db = (v : Int) →
    ∃ m, m ≤ fuel ∧ invokes (upgradeLoop f fuel v db tr).2.1
      = invokes tr ++ (List.range' v m).map invokePair := by
  intro fuel
  induction fuel with
  | zero => intro v db tr _; exact ⟨0, le_rfl, by simp [upgradeLoop]⟩
  | succ fuel ih =>
    intro v db tr hv
    by_cases hb : f.beginFails v
    · exact ⟨0, Nat.zero_le _,
        by rw [upgradeLoop_succ_beginFail f fuel v db tr hb]; simp⟩
    · by_cases hs : f.stepFails v
      · refine ⟨1, by omega, ?_⟩
        rw [upgradeLoop_succ_stepFail f fuel v db tr (by simpa using hb) hs, hv]
        simp [invokes_append, invokes, invokePair]
      · by_cases hd : f.deleteFails v
        · refine ⟨1, by omega, ?_⟩
          rw [upgradeLoop_succ_deleteFail f fuel v db tr (by simpa using hb)
            (by simpa using hs) hd, hv]
          simp [invokes_append, invokes, invokePair]
        · by_cases hi : f.insertFails v
          · refine ⟨1, by omega, ?_⟩
            rw [upgradeLoop_succ_insertFail f fuel v db tr (by simpa using hb)
              (by simpa using hs) (by simpa using hd) hi, hv]
            simp [invokes_append, invokes, invokePair]
          · by_cases hc : f.commitFails v
            · refine ⟨1, by omega, ?_⟩
              rw [upgradeLoop_succ_commitFail f fuel v db tr (by simpa using hb)
                (by simpa using hs) (by simpa using hd) (by simpa using hi) hc, hv]
              simp [invokes_append, invokes, invokePair]
            · obtain ⟨m, hm, heq⟩ := ih (v + 1) (commitIter v db)
                (tr ++ [Event.began v, Event.invoked v (v : Int)])
                (schemaVersion_commitIter v db)
              refine ⟨m + 1, by omega, ?_⟩
              rw [upgradeLoop_succ_ok f fuel v db tr
                (iterOK_of (by simpa using hb) (by simpa using hs) (by simpa using hd)
                  (by simpa using hi) (by simpa using hc)), hv]
              rw [heq, List.range'_succ]
              simp [invokes_append, invokes, invokePair]

theorem noFaults_iterOK (i : Nat) : iterOK noFaults i = true := rfl

theorem stepFailsOnly_iterOK (k i : Nat) (h : i ≠ k) : iterOK (stepFailsOnly k) i = true := by
  simp [iterOK, stepFailsOnly, h]

theorem deleteFailsOnly_iterOK (k i : Nat) (h : i ≠ k) :
    iterOK (deleteFailsOnly k) i = true := by
  simp [iterOK, deleteFailsOnly, h]

theorem insertFailsOnly_iterOK (k i : Nat) (h : i ≠ k) :
    iterOK (insertFailsOnly k) i = true := by
  simp [iterOK, insertFailsOnly, h]

theorem getVersion_table (f : Faults) (db : DB) (hc : f.createFails = false)
    (hr : f.readFails = false) (ht : db.hasVersionTable = true) :
    Container.getVersion f db = (db, Except.ok (schemaVersion db)) := by
  simp [Container.getVersion, hc, hr, ht, schemaVersion]

theorem getVersion_noTable (f : Faults) (db : DB) (hc : f.createFails = false)
    (ht : db.hasVersionTable = false) :
    Container.getVersion f db
      = ({ db with hasVersionTable := true, versionRows := [] }, Except.ok 0) := by
  simp [Container.getVersion, hc, ht]

theorem upgrade_eq_loop (f : Faults) (n : Nat) (db : DB) (hc : f.createFails = false)
    (hr : f.readFails = false) (ht : db.hasVersionTable = true)
    {v : Nat} (hv : schemaVersion db = (v : Int)) :
    Container.Upgrade f n db = upgradeLoop f (n - v) v db [] := by
  have hg := getVersion_table f db hc hr ht
  rw [hv] at hg
  simp [Container.Upgrade, hg, Int.toNat_natCast]

theorem upgrade_fresh_eq_loop (f : Faults) (n : Nat) (hc : f.createFails = false) :
    Container.Upgrade f n freshDB
      = upgradeLoop f n 0 { hasVersionTable := true, versionRows := [], applied := [] } [] := by
  have hg := getVersion_noTable f freshDB hc rfl
  simp only [freshDB] at hg
  simp [Container.Upgrade, hg, freshDB]

/-- C4 counterexample: executing `upgradeV2` under the unrecognized dialect
string "mysql" does not return a hard error — it executes the SQLite-dialect
backfill SQL and reports no error, contradicting the claim that a dialect
outside the step's closed supported set is rejected. -/
theorem upgradeV2_unknown_dialect_no_error :
    upgradeV2 "mysql" [] = ([SqlStmt.alterAddSigKey, SqlStmt.fillSigKeySQLite], none) := by
  decide

/-- C4 amended: `upgradeV2` executes the Postgres backfill SQL exactly when the
dialect is "postgres" or "pgx", and for every other dialect string it falls
back to the SQLite backfill SQL; it never returns a dialect error, so
unrecognized dialects are not rejected. -/
theorem upgradeV2_dialect_branch (dialect : String) (tx : List SqlStmt) :
    (upgradeV2 dialect tx).2 = none
    ∧ ((dialect = "postgres" ∨ dialect = "pgx") →
        (upgradeV2 dialect tx).1 = tx ++ [SqlStmt.alterAddSigKey, SqlStmt.fillSigKeyPostgres])
    ∧ (dialect ≠ "postgres" → dialect ≠ "pgx" →
        (upgradeV2 dialect tx).1 = tx ++ [SqlStmt.alterAddSigKey, SqlStmt.fillSigKeySQLite]) := by
  by_cases h1 : dialect = "postgres"
  · simp [upgradeV2, h1]
  · by_cases h2 : dialect = "pgx"
    · simp [upgradeV2, h1, h2]
    · simp [upgradeV2, h1, h2]

theorem upgradeV2_dialect_branch_witness :
    (upgradeV2 "pgx" []).1 = [SqlStmt.alterAddSigKey, SqlStmt.fillSigKeyPostgres]
    ∧ (upgradeV2 "sqlite3" []).1 = [SqlStmt.alterAddSigKey, SqlStmt.fillSigKeySQLite]
    ∧ (upgradeV2 "sqlite3" []).2 = none :=
  ⟨(upgradeV2_dialect_branch "pgx" []).2.1 (Or.inr rfl),
   (upgradeV2_dialect_branch "sqlite3" []).2.2 (by decide) (by decide),
   (upgradeV2_dialect_branch "sqlite3" []).1⟩

/-- C5 counterexample: after one `getVersion` call on a store with no version
table (all calls succeeding), the version table exists but contains zero
rows, not exactly one row as the claim states; the version row is only ever
inserted by `setVersion`. -/
theorem getVersion_fresh_creates_empty_table :
    Container.getVersion noFaults freshDB
      = ({ hasVersionTable := true, versionRows := [], applied := [] }, Except.ok 0)
    ∧ (Container.getVersion noFaults freshDB).1.versionRows.length ≠ 1 :=
  ⟨rfl, by decide⟩

/-- C5 amended: `getVersion` on a store with no version table creates the
table and returns 0 with no error; after that one call the table exists and
contains zero rows (not one).  If the table already exists the creation is
idempotent and side-effect-free (the state is returned unchanged), and if the
table holds no row `getVersion` returns 0 without error. -/
theorem getVersion_behaviour (db : DB) :
    (Container.getVersion noFaults db).1.hasVersionTable = true
    ∧ (db.hasVersionTable = false →
        Container.getVersion noFaults db
          = ({ db with hasVersionTable := true, versionRows := [] }, Except.ok 0))
    ∧ (db.hasVersionTable = true →
        Container.getVersion noFaults db = (db, Except.ok (schemaVersion db)))
    ∧ (db.versionRows = [] → (Container.getVersion noFaults db).2 = Except.ok 0) := by
  by_cases ht : db.hasVersionTable
  · refine ⟨?_, ?_, ?_, ?_⟩
    · rw [getVersion_table noFaults db rfl rfl ht]; exact ht
    · intro hf; rw [ht] at hf; exact absurd hf (by simp)
    · intro _; exact getVersion_table noFaults db rfl rfl ht
    · intro hrows
      rw [getVersion_table noFaults db rfl rfl ht]
      simp [schemaVersion, hrows]
  · have ht' : db.hasVersionTable = false := by simpa using ht
    refine ⟨?_, ?_, ?_, ?_⟩
    · rw [getVersion_noTable noFaults db rfl ht']
    · intro _; exact getVersion_noTable noFaults db rfl ht'
    · intro hf; rw [ht'] at hf; exact absurd hf (by simp)
    · intro _; rw [getVersion_noTable noFaults db rfl ht']

theorem getVersion_behaviour_witness :
    (freshDB.hasVersionTable = false
      ∧ Container.getVersion noFaults freshDB
          = ({ freshDB with hasVersionTable := true, versionRows := [] }, Except.ok 0))
    ∧ ((DB.mk true [5] [0]).hasVersionTable = true
      ∧ Container.getVersion noFaults (DB.mk true [5] [0])
          = (DB.mk true [5] [0], Except.ok (schemaVersion (DB.mk true [5] [0]))))
    ∧ ((DB.mk true [] []).versionRows = []
      ∧ (Container.getVersion noFaults (DB.mk true [] [])).2 = Except.ok 0) :=
  ⟨⟨rfl, (getVersion_behaviour freshDB).2.1 rfl⟩,
   ⟨rfl, (getVersion_behaviour (DB.mk true [5] [0])).2.2.1 rfl⟩,
   ⟨rfl, (getVersion_behaviour (DB.mk true [] [])).2.2.2 rfl⟩⟩

/-- C6: for every integer `v` and every prior state of the version table, a
successful `setVersion tx v` (delete-all-rows then insert, as the definition
mirrors from the source) leaves the version table holding exactly one row
whose value is `v`. -/
theorem setVersion_replaces_row (f : Faults) (i : Nat) (tx : DB) (v : Int)
    (h : (Container.setVersion f i tx v).2 = none) :
    (Container.setVersion f i tx v).1.versionRows = [v]
    ∧ (Container.setVersion f i tx v).1.versionRows.length = 1 := by
  by_cases hd : f.deleteFails i
  · simp [Container.setVersion, hd] at h
  · by_cases hi : f.insertFails i
    · simp [Container.setVersion, hd, hi] at h
    · simp [Container.setVersion, hd, hi]

theorem setVersion_replaces_row_witness :
    (Container.setVersion noFaults 0 (DB.mk true [3] []) (-7)).2 = none
    ∧ (Container.setVersion noFaults 0 (DB.mk true [3] []) (-7)).1.versionRows = [-7]
    ∧ (Container.setVersion noFaults 0 (DB.mk true [3] []) (-7)).1.versionRows.length = 1 :=
  ⟨by decide, (setVersion_replaces_row noFaults 0 (DB.mk true [3] []) (-7) (by decide)).1,
   (setVersion_replaces_row noFaults 0 (DB.mk true [3] []) (-7) (by decide)).2⟩

/-- C8: calling `Upgrade` when the persisted version already equals the
registry length `n` is a no-op: no error, an empty event trace (so no
transaction is begun and no step is invoked), and the durable state — and in
particular the persisted version — is unchanged. -/
theorem upgrade_noop_at_latest (n : Nat) (f : Faults) (db : DB)
    (hc : f.createFails = false) (hr : f.readFails = false)
    (ht : db.hasVersionTable = true) (hv : schemaVersion db = (n : Int)) :
    Container.Upgrade f n db = (db, [], none) := by
  rw [upgrade_eq_loop f n db hc hr ht hv]
  simp [upgradeLoop]

theorem upgrade_noop_at_latest_witness :
    noFaults.createFails = false ∧ noFaults.readFails = false
    ∧ (DB.mk true [2] [0, 1]).hasVersionTable = true
    ∧ schemaVersion (DB.mk true [2] [0, 1]) = ((2 : Nat) : Int)
    ∧ Container.Upgrade noFaults 2 (DB.mk true [2] [0, 1]) = (DB.mk true [2] [0, 1], [], none) :=
  ⟨rfl, rfl, rfl, by decide,
   upgrade_noop_at_latest 2 noFaults (DB.mk true [2] [0, 1]) rfl rfl rfl (by decide)⟩

/-- C10: when the version table's read (the `SELECT`/`Scan` in `getVersion`)
fails while table creation succeeded, `getVersion` swallows the failure and
returns `(0, nil)` — the store is silently treated as a fresh version-0 store
instead of surfacing an error. -/
theorem getVersion_ignores_read_failure (f : Faults) (db : DB)
    (hc : f.createFails = false) (hr : f.readFails = true) :
    (Container.getVersion f db).2 = Except.ok 0 := by
  simp [Container.getVersion, hc, hr]

theorem getVersion_ignores_read_failure_witness :
    ({ readFails := true : Faults }).createFails = false
    ∧ ({ readFails := true : Faults }).readFails = true
    ∧ (Container.getVersion { readFails := true } (DB.mk true [5] [0])).2 = Except.ok 0 :=
  ⟨rfl, rfl,
   getVersion_ignores_read_failure { readFails := true } (DB.mk true [5] [0]) rfl rfl⟩

/-- C2: a run of `Upgrade` on a fresh store (version 0) that returns no error
leaves the persisted version equal to the registry length `n`, leaves exactly
the effects of steps `0..n-1` committed in order, and has invoked each of the
`n` steps exactly once, step `i` with the store at version `i`. -/
theorem upgrade_fresh_success (n : Nat) (f : Faults)
    (h : (Container.Upgrade f n freshDB).2.2 = none) :
    schemaVersion (Container.Upgrade f n freshDB).1 = (n : Int)
    ∧ (Container.Upgrade f n freshDB).1.applied = List.range' 0 n
    ∧ invokes (Container.Upgrade f n freshDB).2.1 = (List.range' 0 n).map invokePair := by
  by_cases hc : f.createFails
  · rw [Container.Upgrade] at h
    simp [Container.getVersion, hc] at h
  · have hc' : f.createFails = false := by simpa using hc
    rw [upgrade_fresh_eq_loop f n hc'] at h ⊢
    have hv : schemaVersion { hasVersionTable := true, versionRows := [], applied := [] : DB }
        = ((0 : Nat) : Int) := rfl
    rw [upgradeLoop_none f n 0 _ [] hv h]
    refine ⟨?_, ?_, ?_⟩
    · simpa using schemaVersion_applyRange n 0 _ hv
    · simpa using applyRange_applied n 0 _
    · simp [invokes_okTrace]

theorem upgrade_fresh_success_witness :
    (Container.Upgrade noFaults 2 freshDB).2.2 = none
    ∧ (schemaVersion (Container.Upgrade noFaults 2 freshDB).1 = ((2 : Nat) : Int)
      ∧ (Container.Upgrade noFaults 2 freshDB).1.applied = List.range' 0 2
      ∧ invokes (Container.Upgrade noFaults 2 freshDB).2.1
          = (List.range' 0 2).map invokePair) :=
  ⟨by decide, upgrade_fresh_success 2 noFaults (by decide)⟩

/-- C1: every run of `Upgrade`, under every fault pattern, moves the durable
state in lockstep: some number `j` of whole iterations starting at the read
version `v0` commit, atomically adding step `v0+i`'s schema effect together
with the version bump for each committed iteration — the final version equals
`v0 + j` exactly when the new effects are those of steps `v0..v0+j-1`, so
durable storage never holds a step's effect without its bump nor a bump
without its step's effect. -/
theorem upgrade_atomic_lockstep (f : Faults) (n : Nat) (db : DB) :
    ∃ v0 j,
      (Container.Upgrade f n db).1.applied = db.applied ++ List.range' v0 j
      ∧ (0 < j → (Container.Upgrade f n db).1.versionRows = [((v0 + j : Nat) : Int)])
      ∧ (j = 0 →
          (Container.Upgrade f n db).1.versionRows = db.versionRows
          ∨ (Container.Upgrade f n db).1.versionRows = []) := by
  by_cases hc : f.createFails
  · refine ⟨0, 0, ?_, ?_, ?_⟩ <;>
      simp [Container.Upgrade, Container.getVersion, hc]
  · have hc' : f.createFails = false := by simpa using hc
    by_cases ht : db.hasVersionTable
    · have hg : Container.getVersion f db
          = (db, Except.ok (if f.readFails then 0 else schemaVersion db)) := by
        simp [Container.getVersion, hc', ht, schemaVersion]
      have hU : Container.Upgrade f n db
          = upgradeLoop f (n - (if f.readFails then 0 else schemaVersion db).toNat)
              (if f.readFails then 0 else schemaVersion db).toNat db [] := by
        rw [Container.Upgrade, hg]
      obtain ⟨j, _, heq⟩ := upgradeLoop_lockstep f
        (n - (if f.readFails then 0 else schemaVersion db).toNat)
        ((if f.readFails then 0 else schemaVersion db).toNat) db []
      refine ⟨(if f.readFails then 0 else schemaVersion db).toNat, j, ?_, ?_, ?_⟩
      · rw [hU, heq, applyRange_applied]
      · intro hj
        rw [hU, heq, applyRange_rows_pos _ _ _ hj]
      · intro hj
        subst hj
        rw [hU, heq]
        exact Or.inl rfl
    · have ht' : db.hasVersionTable = false := by simpa using ht
      have hg := getVersion_noTable f db hc' ht'
      have hU : Container.Upgrade f n db
          = upgradeLoop f n 0 { db with hasVersionTable := true, versionRows := [] } [] := by
        rw [Container.Upgrade, hg]
        rfl
      obtain ⟨j, _, heq⟩ := upgradeLoop_lockstep f n 0
        { db with hasVersionTable := true, versionRows := [] } []
      refine ⟨0, j, ?_, ?_, ?_⟩
      · rw [hU, heq, applyRange_applied]
      · intro hj
        rw [hU, heq, applyRange_rows_pos _ _ _ hj]
      · intro hj
        subst hj
        rw [hU, heq]
        exact Or.inr rfl

/-- C9 counterexample: with the stored version at 1 (step 0 already applied)
and the version-row read failing (an error `getVersion` swallows), `Upgrade`
invokes step 0 while the stored schema version is 1 — so it is not true of
every execution that step `i` is only invoked when the stored version equals
`i`.  (The invoked step then fails, as the real `upgradeV1` would on an
already-upgraded database, and the durable state is untouched.) -/
theorem upgrade_invocation_at_stale_version :
    (Container.Upgrade { readFails := true, stepFails := fun i => i == 0 } 4
        (DB.mk true [1] [0])).2.1
      = [Event.began 0, Event.invoked 0 1]
    ∧ Event.invoked 0 1 ∈ (Container.Upgrade { readFails := true, stepFails := fun i => i == 0 } 4
        (DB.mk true [1] [0])).2.1
    ∧ ((1 : Int) ≠ ((0 : Nat) : Int))
    ∧ schemaVersion (DB.mk true [1] [0]) = 1 := by
  exact ⟨rfl, by decide, by decide, rfl⟩

/-- C9 amended: provided the version-row read succeeds (and table creation
succeeds, with the table present and a nonnegative stored version), every
execution of `Upgrade` — including ones failing partway — invokes steps
strictly in ascending consecutive registry order starting at the stored
version, each step `i` exactly once and only with the stored schema version
equal to `i` (the version advancing to `i+1` between consecutive
invocations). -/
theorem upgrade_invokes_ascending (n : Nat) (f : Faults) (db : DB)
    (hc : f.createFails = false) (hr : f.readFails = false)
    (ht : db.hasVersionTable = true) (hv : 0 ≤ schemaVersion db) :
    ∃ m, m ≤ n - (schemaVersion db).toNat
      ∧ invokes (Container.Upgrade f n db).2.1
        = (List.range' ((schemaVersion db).toNat) m).map invokePair := by
  have hv' : schemaVersion db = (((schemaVersion db).toNat : Nat) : Int) :=
    (Int.toNat_of_nonneg hv).symm
  rw [upgrade_eq_loop f n db hc hr ht hv']
  obtain ⟨m, hm, heq⟩ := upgradeLoop_invokes f (n - (schemaVersion db).toNat)
    ((schemaVersion db).toNat) db [] hv'
  exact ⟨m, hm, by simpa [invokes] using heq⟩

theorem upgrade_invokes_ascending_witness :
    noFaults.createFails = false ∧ noFaults.readFails = false
    ∧ (DB.mk true [] []).hasVersionTable = true
    ∧ (0 : Int) ≤ schemaVersion (DB.mk true [] [])
    ∧ ∃ m, m ≤ 2 - (schemaVersion (DB.mk true [] [])).toNat
        ∧ invokes (Container.Upgrade noFaults 2 (DB.mk true [] [])).2.1
          = (List.range' ((schemaVersion (DB.mk true [] [])).toNat) m).map invokePair :=
  ⟨rfl, rfl, rfl, by decide,
   upgrade_invokes_ascending 2 noFaults (DB.mk true [] []) rfl rfl rfl (by decide)⟩

theorem schemaVersion_applyRange_zero (k : Nat) :
    schemaVersion (applyRange 0 k initDB) = (k : Int) := by
  simpa using schemaVersion_applyRange k 0 initDB rfl

theorem applyRange_initDB_facts (k : Nat) :
    (applyRange 0 k initDB).applied = List.range' 0 k
    ∧ schemaVersion (applyRange 0 k initDB) = (k : Int)
    ∧ k ∉ (applyRange 0 k initDB).applied := by
  have ha : (applyRange 0 k initDB).applied = List.range' 0 k := by
    simpa [initDB] using applyRange_applied k 0 initDB
  refine ⟨ha, schemaVersion_applyRange_zero k, ?_⟩
  rw [ha]
  simp [List.mem_range'_1]

theorem upgrade_fresh_advance (f : Faults) (n k : Nat) (hk : k ≤ n)
    (hc : f.createFails = false) (hok : ∀ i, i < k → iterOK f i = true) :
    Container.Upgrade f n freshDB
      = upgradeLoop f (n - k) k (applyRange 0 k initDB) (okTrace 0 k) := by
  rw [upgrade_fresh_eq_loop f n hc]
  show upgradeLoop f n 0 initDB [] = _
  have h := upgradeLoop_advance f k n 0 initDB [] hk
    (fun i hi => by simpa using hok i hi) rfl
  simpa using h

/-- C3: when migration step `k` fails on a fresh store, its transaction is
discarded (the durable state is exactly the state after the `k` committed
iterations), the step's own error is returned, the persisted version is
exactly `k`, the effects of steps `0..k-1` remain committed and step `k`'s is
absent; a subsequent `Upgrade` with no faults resumes by invoking exactly
steps `k..n-1` (step `k` first) and completes, ending at version `n`. -/
theorem upgrade_step_failure_resumable (n k : Nat) (hk : k < n) :
    (Container.Upgrade (stepFailsOnly k) n freshDB).2.2 = some (DbError.step k)
    ∧ (Container.Upgrade (stepFailsOnly k) n freshDB).1 = applyRange 0 k initDB
    ∧ (Container.Upgrade (stepFailsOnly k) n freshDB).1.applied = List.range' 0 k
    ∧ schemaVersion (Container.Upgrade (stepFailsOnly k) n freshDB).1 = (k : Int)
    ∧ k ∉ (Container.Upgrade (stepFailsOnly k) n freshDB).1.applied
    ∧ invokes (Container.Upgrade (stepFailsOnly k) n freshDB).2.1
        = (List.range' 0 (k + 1)).map invokePair
    ∧ (Container.Upgrade noFaults n (Container.Upgrade (stepFailsOnly k) n freshDB).1).2.2
        = none
    ∧ invokes (Container.Upgrade noFaults n
          (Container.Upgrade (stepFailsOnly k) n freshDB).1).2.1
        = (List.range' k (n - k)).map invokePair
    ∧ schemaVersion (Container.Upgrade noFaults n
          (Container.Upgrade (stepFailsOnly k) n freshDB).1).1 = (n : Int) := by
  have hU1 : Container.Upgrade (stepFailsOnly k) n freshDB
      = (applyRange 0 k initDB,
         okTrace 0 k ++ [Event.began k, Event.invoked k (k : Int)],
         some (DbError.step k)) := by
    rw [upgrade_fresh_advance (stepFailsOnly k) n k (by omega) rfl
      (fun i hi => stepFailsOnly_iterOK k i (by omega))]
    obtain ⟨m, hm⟩ : ∃ m, n - k = m + 1 := ⟨n - k - 1, by omega⟩
    rw [hm, upgradeLoop_succ_stepFail (stepFailsOnly k) m k _ _ rfl
      (by simp [stepFailsOnly]), schemaVersion_applyRange_zero]
  have h1a : (Container.Upgrade (stepFailsOnly k) n freshDB).1 = applyRange 0 k initDB := by
    rw [hU1]
  have h1b : (Container.Upgrade (stepFailsOnly k) n freshDB).2.1
      = okTrace 0 k ++ [Event.began k, Event.invoked k (k : Int)] := by
    rw [hU1]
  have h1c : (Container.Upgrade (stepFailsOnly k) n freshDB).2.2
      = some (DbError.step k) := by
    rw [hU1]
  have hU2 : Container.Upgrade noFaults n (applyRange 0 k initDB)
      = (applyRange k (n - k) (applyRange 0 k initDB), okTrace k (n - k), none) := by
    rw [upgrade_eq_loop noFaults n (applyRange 0 k initDB) rfl rfl
      (by rw [applyRange_table]; rfl) (schemaVersion_applyRange_zero k)]
    have h := upgradeLoop_ok noFaults (n - k) k (applyRange 0 k initDB) []
      (fun i _ => noFaults_iterOK _) (schemaVersion_applyRange_zero k)
    simpa using h
  refine ⟨h1c, h1a, ?_, ?_, ?_, ?_, ?_, ?_, ?_⟩
  · rw [h1a]; exact (applyRange_initDB_facts k).1
  · rw [h1a]; exact (applyRange_initDB_facts k).2.1
  · rw [h1a]; exact (applyRange_initDB_facts k).2.2
  · rw [h1b, invokes_append, invokes_okTrace]
    simp [invokes, invokePair, List.range'_concat]
  · rw [h1a, hU2]
  · rw [h1a, hU2]
    exact invokes_okTrace (n - k) k
  · rw [h1a, hU2]
    have h3 := schemaVersion_applyRange (n - k) k (applyRange 0 k initDB)
      (schemaVersion_applyRange_zero k)
    rw [show k + (n - k) = n from by omega] at h3
    exact h3

theorem upgrade_step_failure_resumable_witness :
    1 < 2
    ∧ ((Container.Upgrade (stepFailsOnly 1) 2 freshDB).2.2 = some (DbError.step 1)
      ∧ (Container.Upgrade (stepFailsOnly 1) 2 freshDB).1 = applyRange 0 1 initDB
      ∧ (Container.Upgrade (stepFailsOnly 1) 2 freshDB).1.applied = List.range' 0 1
      ∧ schemaVersion (Container.Upgrade (stepFailsOnly 1) 2 freshDB).1 = ((1 : Nat) : Int)
      ∧ 1 ∉ (Container.Upgrade (stepFailsOnly 1) 2 freshDB).1.applied
      ∧ invokes (Container.Upgrade (stepFailsOnly 1) 2 freshDB).2.1
          = (List.range' 0 (1 + 1)).map invokePair
      ∧ (Container.Upgrade noFaults 2 (Container.Upgrade (stepFailsOnly 1) 2 freshDB).1).2.2
          = none
      ∧ invokes (Container.Upgrade noFaults 2
            (Container.Upgrade (stepFailsOnly 1) 2 freshDB).1).2.1
          = (List.range' 1 (2 - 1)).map invokePair
      ∧ schemaVersion (Container.Upgrade noFaults 2
            (Container.Upgrade (stepFailsOnly 1) 2 freshDB).1).1 = ((2 : Nat) : Int)) :=
  ⟨by decide, upgrade_step_failure_resumable 2 1 (by decide)⟩

/-- C7: if persisting the new version fails inside `Upgrade`'s loop — the
`DELETE` half or the `INSERT` half of `setVersion` at iteration `k` — that
error is returned and the transaction is not committed: the durable state is
exactly the pre-transaction state after `k` committed iterations, so no
partial state of the current step (neither its schema effect nor any
half-done version rewrite) is durable, and the version remains `k`. -/
theorem upgrade_setVersion_failure_uncommitted (n k : Nat) (hk : k < n) :
    ((Container.Upgrade (deleteFailsOnly k) n freshDB).2.2 = some (DbError.deleteVer k)
      ∧ (Container.Upgrade (deleteFailsOnly k) n freshDB).1 = applyRange 0 k initDB
      ∧ (Container.Upgrade (deleteFailsOnly k) n freshDB).1.applied = List.range' 0 k
      ∧ schemaVersion (Container.Upgrade (deleteFailsOnly k) n freshDB).1 = (k : Int)
      ∧ k ∉ (Container.Upgrade (deleteFailsOnly k) n freshDB).1.applied)
    ∧ ((Container.Upgrade (insertFailsOnly k) n freshDB).2.2 = some (DbError.insertVer k)
      ∧ (Container.Upgrade (insertFailsOnly k) n freshDB).1 = applyRange 0 k initDB
      ∧ (Container.Upgrade (insertFailsOnly k) n freshDB).1.applied = List.range' 0 k
      ∧ schemaVersion (Container.Upgrade (insertFailsOnly k) n freshDB).1 = (k : Int)
      ∧ k ∉ (Container.Upgrade (insertFailsOnly k) n freshDB).1.applied) := by
  have hUd : Container.Upgrade (deleteFailsOnly k) n freshDB
      = (applyRange 0 k initDB,
         okTrace 0 k ++ [Event.began k, Event.invoked k (k : Int)],
         some (DbError.deleteVer k)) := by
    rw [upgrade_fresh_advance (deleteFailsOnly k) n k (by omega) rfl
      (fun i hi => deleteFailsOnly_iterOK k i (by omega))]
    obtain ⟨m, hm⟩ : ∃ m, n - k = m + 1 := ⟨n - k - 1, by omega⟩
    rw [hm, upgradeLoop_succ_deleteFail (deleteFailsOnly k) m k _ _ rfl rfl
      (by simp [deleteFailsOnly]), schemaVersion_applyRange_zero]
  have hUi : Container.Upgrade (insertFailsOnly k) n freshDB
      = (applyRange 0 k initDB,
         okTrace 0 k ++ [Event.began k, Event.invoked k (k : Int)],
         some (DbError.insertVer k)) := by
    rw [upgrade_fresh_advance (insertFailsOnly k) n k (by omega) rfl
      (fun i hi => insertFailsOnly_iterOK k i (by omega))]
    obtain ⟨m, hm⟩ : ∃ m, n - k = m + 1 := ⟨n - k - 1, by omega⟩
    rw [hm, upgradeLoop_succ_insertFail (insertFailsOnly k) m k _ _ rfl rfl rfl
      (by simp [insertFailsOnly]), schemaVersion_applyRange_zero]
  have hda : (Container.Upgrade (deleteFailsOnly k) n freshDB).1 = applyRange 0 k initDB := by
    rw [hUd]
  have hia : (Container.Upgrade (insertFailsOnly k) n freshDB).1 = applyRange 0 k initDB := by
    rw [hUi]
  refine ⟨⟨by rw [hUd], hda, ?_, ?_, ?_⟩, ⟨by rw [hUi], hia, ?_, ?_, ?_⟩⟩
  · rw [hda]; exact (applyRange_initDB_facts k).1
  · rw [hda]; exact (applyRange_initDB_facts k).2.1
  · rw [hda]; exact (applyRange_initDB_facts k).2.2
  · rw [hia]; exact (applyRange_initDB_facts k).1
  · rw [hia]; exact (applyRange_initDB_facts k).2.1
  · rw [hia]; exact (applyRange_initDB_facts k).2.2

theorem upgrade_setVersion_failure_uncommitted_witness :
    1 < 3
    ∧ (((Container.Upgrade (deleteFailsOnly 1) 3 freshDB).2.2 = some (DbError.deleteVer 1)
      ∧ (Container.Upgrade (deleteFailsOnly 1) 3 freshDB).1 = applyRange 0 1 initDB
      ∧ (Container.Upgrade (deleteFailsOnly 1) 3 freshDB).1.applied = List.range' 0 1
      ∧ schemaVersion (Container.Upgrade (deleteFailsOnly 1) 3 freshDB).1 = ((1 : Nat) : Int)
      ∧ 1 ∉ (Container.Upgrade (deleteFailsOnly 1) 3 freshDB).1.applied)
    ∧ ((Container.Upgrade (insertFailsOnly 1) 3 freshDB).2.2 = some (DbError.insertVer 1)
      ∧ (Container.Upgrade (insertFailsOnly 1) 3 freshDB).1 = applyRange 0 1 initDB
      ∧ (Container.Upgrade (insertFailsOnly 1) 3 freshDB).1.applied = List.range' 0 1
      ∧ schemaVersion (Container.Upgrade (insertFailsOnly 1) 3 freshDB).1 = ((1 : Nat) : Int)
      ∧ 1 ∉ (Container.Upgrade (insertFailsOnly 1) 3 freshDB).1.applied)) :=
  ⟨by decide, upgrade_setVersion_failure_uncommitted 3 1 (by decide)⟩
